import Mathlib

/-!
Verification of the tempo-detection engine of MusicTechTools
(`link2aws/details/findtemp.py`).

Numbers are modelled by exact rationals `ℚ` (the Python code computes with
IEEE doubles; every claim checked here is about ordering, branching and
exact arithmetic identities, none about rounding).  Outputs of the external
`librosa` / `numpy` library calls (the loaded waveform, the onset envelope,
the tempogram matrix, the raw tempo-candidate list, and the transcendental
`np.exp`) are taken as explicit inputs of the embedded functions.
-/

namespace FindTemp

/-- Python `min(l, key=fun c => |c - center|)` specialised to the use in
`half_double_normalize`: first element attaining the minimal distance wins
(`none` on the empty list, where Python `min` would raise). -/
def pickNearest (center : ℚ) : List ℚ → Option ℚ
  | [] => none
  | x :: xs =>
    match pickNearest center xs with
    | none => some x
    | some b => if |x - center| ≤ |b - center| then some x else some b

/-- Set union on lists: keeps the left list, appends the members of the
right list not already present.  Models the Python `set` union used in
`half_double_normalize` (iteration order of a CPython `set` is
implementation defined; every theorem below is order independent). -/
def unionL (a b : List ℚ) : List ℚ :=
  a ++ b.filter (fun x => decide (x ∉ a))

/-- One iteration of the loop of `half_double_normalize` (findtemp.py
lines 81-83): add the halves of all current candidates, then the doubles
of all candidates including the new halves. -/
def hdStep (cs : List ℚ) : List ℚ :=
  let h := unionL cs (cs.map (fun c => c / 2))
  unionL h (h.map (fun c => c * 2))

/-- The candidate set built by `half_double_normalize` (findtemp.py lines
80-83): three iterations of halving and doubling starting from `{bpm}`. -/
def hdCandidates (bpm : ℚ) : List ℚ :=
  hdStep (hdStep (hdStep [bpm]))

/-- Function `half_double_normalize` from findtemp.py lines 76-88: pull the picked
BPM toward the preferred window via half/double steps.  The center
`0.5 * (prefer_min + prefer_max)` is written `(mn + mx) / 2`. -/
def half_double_normalize (bpm : ℚ) (prefer_min prefer_max : Option ℚ) : ℚ :=
  match prefer_min, prefer_max with
  | some mn, some mx =>
    match pickNearest ((mn + mx) / 2)
        ((hdCandidates bpm).filter (fun c => decide (mn ≤ c ∧ c ≤ mx))) with
    | some c => c
    | none => bpm
  | _, _ => bpm

/-- Embeds `np.mean` of one tempogram row (the time axis); findtemp.py line 57. -/
def rowMean (r : List ℚ) : ℚ :=
  r.foldl (fun a x => a + x) 0 / r.length

/-- findtemp.py lines 58-64: walk the per-lag strengths (index = lag),
drop lag 0, convert lag to BPM and keep the pairs inside
`[bpm_min, bpm_max]`. -/
def lagFilter (sr hop : ℕ) (bmin bmax : ℚ) : ℕ → List ℚ → List (ℚ × ℚ)
  | _, [] => []
  | lag, s :: rest =>
    if 0 < lag then
      if bmin ≤ (60 * sr / (hop * lag) : ℚ) ∧ (60 * sr / (hop * lag) : ℚ) ≤ bmax then
        ((60 * sr / (hop * lag) : ℚ), s) :: lagFilter sr hop bmin bmax (lag + 1) rest
      else lagFilter sr hop bmin bmax (lag + 1) rest
    else lagFilter sr hop bmin bmax (lag + 1) rest

/-- Function `tempogram_strengths` from findtemp.py lines 50-64, with the tempogram
matrix `tg` (lag × time, a `librosa` output) passed in explicitly.
Returns the parallel arrays `(bpms, strengths)`. -/
def tempogram_strengths (tg : List (List ℚ)) (sr hop : ℕ)
    (bmin bmax : ℚ) : List ℚ × List ℚ :=
  let pairs := lagFilter sr hop bmin bmax 0 (tg.map rowMean)
  (pairs.map Prod.fst, pairs.map Prod.snd)

/-- Function `apply_gaussian_prior` from findtemp.py lines 66-74.  `e` stands for
the external `np.exp`; everything else is exact rational arithmetic. -/
def apply_gaussian_prior (e : ℚ → ℚ) (bpms strengths : List ℚ)
    (prefer_min prefer_max : Option ℚ) : List ℚ :=
  match prefer_min, prefer_max with
  | some mn, some mx =>
    if mx ≤ mn then strengths
    else
      let center := (mn + mx) / 2
      let sigma := max ((mx - mn) / 2) 1
      List.zipWith (fun b s => s * e (-(1 / 2) * ((b - center) / sigma) ^ 2))
        bpms strengths
  | _, _ => strengths

/-- Embeds `np.argmax`: index of the first occurrence of the maximum
(0 on the empty list, where numpy would raise). -/
def argmaxIdx : List ℚ → ℕ
  | [] => 0
  | x :: xs => if xs.all (fun y => decide (y ≤ x)) then 0 else argmaxIdx xs + 1

/-- The prior-weighted strength profile of findtemp.py line 118 (the
`weighted` local of `detect_tempo`, built from the default 30-240 BPM
tempogram profile). -/
def weightedOf (e : ℚ → ℚ) (tg : List (List ℚ)) (sr hop : ℕ)
    (prefer_min prefer_max : Option ℚ) : List ℚ :=
  apply_gaussian_prior e (tempogram_strengths tg sr hop 30 240).1
    (tempogram_strengths tg sr hop 30 240).2 prefer_min prefer_max

/-- findtemp.py lines 117-119 without the empty-profile fallback:
`bpms[np.argmax(weighted)]`, or `none` when the profile is empty. -/
def pick_bpm (e : ℚ → ℚ) (tg : List (List ℚ)) (sr hop : ℕ)
    (prefer_min prefer_max : Option ℚ) : Option ℚ :=
  let p := tempogram_strengths tg sr hop 30 240
  let weighted := apply_gaussian_prior e p.1 p.2 prefer_min prefer_max
  p.1[argmaxIdx weighted]?

/-- Embeds `np.median`: sort ascending, take the middle element (odd length) or
the mean of the two middle elements (even length).  NumPy returns NaN on
the empty list; that case is mapped to `0` and never relied upon. -/
def npMedian (l : List ℚ) : ℚ :=
  let s := l.insertionSort (fun a b => a ≤ b)
  let n := l.length
  if n % 2 = 1 then s.getD (n / 2) 0
  else (s.getD (n / 2 - 1) 0 + s.getD (n / 2) 0) / 2

/-- Embeds `np.mean` (0 on the empty list, where numpy would return NaN). -/
def npMean (l : List ℚ) : ℚ :=
  l.foldl (fun a x => a + x) 0 / l.length

/-- findtemp.py lines 124-129: the aggregation branch of `detect_tempo`.
`none` models Python `None` (aggregation disabled). -/
def aggregate_value (aggregate : String) (candidates : List ℚ) : Option ℚ :=
  if aggregate = "median" then some (npMedian candidates)
  else if aggregate = "mean" then some (npMean candidates)
  else none

/-- Result record of `detect_tempo` (the fields the claims are about). -/
structure TempoResult where
  picked_bpm : ℚ
  candidates : List ℚ
  aggregate : Option ℚ
  deriving Repr, DecidableEq

/-- The pure tail of `detect_tempo` (findtemp.py lines 112-140): the raw
librosa tempo candidates `temps` and the tempogram matrix `tg` are inputs.
Returns `none` exactly when both the strength profile and the candidate
list are empty (the Python code would raise `IndexError` on
`candidates[0]` there).  No other input makes the function fail: in
particular no preferred-range validation exists anywhere. -/
def detect_tempo_core (e : ℚ → ℚ) (temps : List ℚ) (tg : List (List ℚ))
    (sr hop topn : ℕ) (aggregate : String)
    (prefer_min prefer_max : Option ℚ) (normalize_half_double : Bool) :
    Option TempoResult :=
  let candidates := temps.take (max 1 topn)
  let p := tempogram_strengths tg sr hop 30 240
  let weighted := apply_gaussian_prior e p.1 p.2 prefer_min prefer_max
  let pick : Option ℚ :=
    if p.1 = [] then candidates.head? else p.1[argmaxIdx weighted]?
  match pick with
  | none => none
  | some b =>
    let b := if normalize_half_double then
               half_double_normalize b prefer_min prefer_max
             else b
    some ⟨b, candidates, aggregate_value aggregate candidates⟩

end FindTemp

namespace MultiHop

/-!
The multi-hop-length tempo engine (`yt2aws/details/findtemp.py`) is invoked
by `menu.py` ("gettempo" route) and by `yt2aws/details/summarize.py`, but
the file itself is not part of the sources available here; the definitions
in this namespace are therefore modelled from the specification text
(spec.md sections 4.3, 4.4) rather than translated from code.
-/

/-- Modelled from the spec: the default hop-length set of the multi-hop
engine of `yt2aws/details/findtemp.py` (missing from the sources; only its
callers `menu.py` and `summarize.py` are present), spec.md section 4.3:
"each hop length in a configured set (default {256, 384, 512, 768, 1024}
samples)", in the fixed priority order in which they are tried. -/
def defaultHopSet : List ℕ := [256, 384, 512, 768, 1024]

/-- Modelled from the spec: the default pooled candidate count of the
multi-hop engine (spec.md section 4.4: "a configured number of valid
candidates (default 5, across all hop lengths combined)"). -/
def defaultNeed : ℕ := 5

/-- Modelled from the spec (section 4.4): per-hop candidate generation in
fixed priority order with early exit.  `candsAt h` is the ranked candidate
list produced independently for hop length `h`; a candidate is valid when
it is finite and positive (over `ℚ`: positive).  Collection stops as soon
as `need` valid candidates have been pooled. -/
def collectCandidates (candsAt : ℕ → List ℚ) : List ℕ → ℕ → List ℚ
  | [], _ => []
  | h :: rest, need =>
    let got := (candsAt h).filter (fun c => decide (0 < c))
    if need ≤ got.length then got.take need
    else got ++ collectCandidates candsAt rest (need - got.length)

/-- Modelled from the spec (section 4.3): energy of analysis frame `t`
(hop length `hop`) of waveform `y` — the single-bin stand-in for the
spectral magnitude of the frame. -/
def frameEnergy (y : List ℚ) (hop t : ℕ) : ℚ :=
  ((y.drop (t * hop)).take hop).foldl (fun a x => a + x ^ 2) 0

/-- Modelled from the spec (section 4.3): onset envelope at hop length
`hop` — per frame, the positive part of the frame-to-frame difference of
spectral energy ("take the frame-to-frame positive spectral difference,
and sum across frequency bins"). -/
def onsetEnv (y : List ℚ) (hop : ℕ) : List ℚ :=
  (List.range (y.length / hop)).map
    (fun t => max 0 (frameEnergy y hop t - frameEnergy y hop (t - 1)))

/-- Modelled from the spec (section 4.4): autocorrelation of the onset
envelope at lag `L`. -/
def autocorrAt (env : List ℚ) (L : ℕ) : ℚ :=
  (List.range (env.length - L)).foldl
    (fun a t => a + env.getD t 0 * env.getD (t + L) 0) 0

/-- Modelled from the spec (section 4.4): the ranked candidate list for one
hop length — lags with strictly positive autocorrelation strength,
converted to BPM, restricted to the default 30-240 BPM range, strongest
first, top 5. -/
def candidatesAtHop (y : List ℚ) (sr hop : ℕ) : List ℚ :=
  let env := onsetEnv y hop
  let lags := (List.range env.length).filter
    (fun L => decide (0 < L) && decide (0 < autocorrAt env L))
  let scored := lags.map
    (fun (L : ℕ) => ((60 : ℚ) * sr / ((hop : ℚ) * L), autocorrAt env L))
  let inRange := scored.filter (fun p => decide (30 ≤ p.1 ∧ p.1 ≤ 240))
  ((inRange.insertionSort (fun p q => q.2 ≤ p.2)).map Prod.fst).take 5

/-- Modelled from the spec (section 4.4): the fallback "single
aggregate-only estimate (median aggregation, using the default hop
length)" used when no hop length yields a valid candidate. -/
def fallbackEstimate (y : List ℚ) (sr : ℕ) : Option ℚ :=
  let cs := (candidatesAtHop y sr 512).filter (fun c => decide (0 < c))
  if cs = [] then none else some (FindTemp.npMedian cs)

/-- Modelled from the spec (sections 4.4 and 7): the multi-hop engine
result `(candidates, aggregate)` with the degrade-gracefully policy —
pool candidates across hop lengths; if none, fall back to an
aggregate-only estimate replicated into the candidate list; if even that
fails, return the empty candidate list and a zero aggregate (the explicit
"unknown tempo" signal — no exception). -/
def detectTempoEngine (y : List ℚ) (sr : ℕ) : List ℚ × ℚ :=
  let pooled := collectCandidates (fun h => candidatesAtHop y sr h)
    defaultHopSet defaultNeed
  if pooled = [] then
    match fallbackEstimate y sr with
    | some f => (List.replicate defaultNeed f, f)
    | none => ([], 0)
  else (pooled, FindTemp.npMedian pooled)

/-- The silent test waveform of the spec: 5 seconds of zeros at 44100 Hz. -/
def silentWaveform : List ℚ := List.replicate (5 * 44100) 0

end MultiHop

namespace FindTemp

theorem mem_unionL {x : ℚ} {a b : List ℚ} : x ∈ unionL a b ↔ x ∈ a ∨ x ∈ b := by
  by_cases hx : x ∈ a
  · simp [unionL, hx]
  · simp [unionL, List.mem_filter, hx]

theorem mem_hdStep_self {x : ℚ} {cs : List ℚ} (h : x ∈ cs) : x ∈ hdStep cs := by
  unfold hdStep
  exact mem_unionL.mpr (Or.inl (mem_unionL.mpr (Or.inl h)))

theorem mem_hdStep_half {x : ℚ} {cs : List ℚ} (h : x ∈ cs) : x / 2 ∈ hdStep cs := by
  unfold hdStep
  exact mem_unionL.mpr (Or.inl (mem_unionL.mpr (Or.inr (List.mem_map_of_mem _ h))))

theorem mem_hdStep_double {x : ℚ} {cs : List ℚ} (h : x ∈ cs) : x * 2 ∈ hdStep cs := by
  unfold hdStep
  exact mem_unionL.mpr
    (Or.inr (List.mem_map_of_mem _ (mem_unionL.mpr (Or.inl h))))

theorem mem_hdStep_elim {x : ℚ} {cs : List ℚ} (h : x ∈ hdStep cs) :
    ∃ y ∈ cs, x = y ∨ x = y / 2 ∨ x = y * 2 := by
  unfold hdStep at h
  rcases mem_unionL.mp h with h1 | h1
  · rcases mem_unionL.mp h1 with h2 | h2
    · exact ⟨x, h2, Or.inl rfl⟩
    · obtain ⟨y, hy, rfl⟩ := List.mem_map.mp h2
      exact ⟨y, hy, Or.inr (Or.inl rfl)⟩
  · obtain ⟨z, hz, rfl⟩ := List.mem_map.mp h1
    rcases mem_unionL.mp hz with h2 | h2
    · exact ⟨z, h2, Or.inr (Or.inr rfl)⟩
    · obtain ⟨y, hy, rfl⟩ := List.mem_map.mp h2
      exact ⟨y, hy, Or.inl (by field_simp)⟩

theorem hdStep_pow {bpm : ℚ} {cs : List ℚ} {a b : ℤ}
    (h : ∀ x ∈ cs, ∃ k : ℤ, a ≤ k ∧ k ≤ b ∧ x = bpm * 2 ^ k) :
    ∀ x ∈ hdStep cs, ∃ k : ℤ, a - 1 ≤ k ∧ k ≤ b + 1 ∧ x = bpm * 2 ^ k := by
  intro x hx
  obtain ⟨y, hy, hcase⟩ := mem_hdStep_elim hx
  obtain ⟨k, hk1, hk2, rfl⟩ := h y hy
  rcases hcase with rfl | rfl | rfl
  · exact ⟨k, by omega, by omega, rfl⟩
  · refine ⟨k - 1, by omega, by omega, ?_⟩
    rw [zpow_sub_one₀ (a := (2 : ℚ)) two_ne_zero]
    ring
  · refine ⟨k + 1, by omega, by omega, ?_⟩
    rw [zpow_add_one₀ (a := (2 : ℚ)) two_ne_zero]
    ring

theorem mem_hdCandidates {bpm x : ℚ} :
    x ∈ hdCandidates bpm ↔ ∃ k : ℤ, -3 ≤ k ∧ k ≤ 3 ∧ x = bpm * 2 ^ k := by
  constructor
  · intro hx
    have h0 : ∀ z ∈ [bpm], ∃ k : ℤ, 0 ≤ k ∧ k ≤ 0 ∧ z = bpm * 2 ^ k := by
      intro z hz
      rw [List.mem_singleton] at hz
      exact ⟨0, le_refl 0, le_refl 0, by simp [hz]⟩
    obtain ⟨k, hk1, hk2, he⟩ := hdStep_pow (hdStep_pow (hdStep_pow h0)) x hx
    exact ⟨k, by omega, by omega, he⟩
  · rintro ⟨k, hk1, hk2, rfl⟩
    have hself : bpm ∈ [bpm] := List.mem_singleton.mpr rfl
    have base : hdCandidates bpm = hdStep (hdStep (hdStep [bpm])) := rfl
    interval_cases k
    · have h := mem_hdStep_half (mem_hdStep_half (mem_hdStep_half hself))
      rw [base, show bpm * (2 : ℚ) ^ (-3 : ℤ) = bpm / 2 / 2 / 2 by
        rw [zpow_neg]; norm_num; ring]
      exact h
    · have h := mem_hdStep_self (mem_hdStep_half (mem_hdStep_half hself))
      rw [base, show bpm * (2 : ℚ) ^ (-2 : ℤ) = bpm / 2 / 2 by
        rw [zpow_neg]; norm_num; ring]
      exact h
    · have h := mem_hdStep_self (mem_hdStep_self (mem_hdStep_half hself))
      rw [base, show bpm * (2 : ℚ) ^ (-1 : ℤ) = bpm / 2 by
        rw [zpow_neg]; norm_num; ring]
      exact h
    · have h := mem_hdStep_self (mem_hdStep_self (mem_hdStep_self hself))
      rw [base, show bpm * (2 : ℚ) ^ (0 : ℤ) = bpm by simp]
      exact h
    · have h := mem_hdStep_self (mem_hdStep_self (mem_hdStep_double hself))
      rw [base, show bpm * (2 : ℚ) ^ (1 : ℤ) = bpm * 2 by norm_num]
      exact h
    · have h := mem_hdStep_self (mem_hdStep_double (mem_hdStep_double hself))
      rw [base, show bpm * (2 : ℚ) ^ (2 : ℤ) = bpm * 2 * 2 by
        norm_num; ring]
      exact h
    · have h := mem_hdStep_double (mem_hdStep_double (mem_hdStep_double hself))
      rw [base, show bpm * (2 : ℚ) ^ (3 : ℤ) = bpm * 2 * 2 * 2 by
        norm_num; ring]
      exact h

theorem pickNearest_eq_none {c : ℚ} {l : List ℚ} :
    pickNearest c l = none ↔ l = [] := by
  cases l with
  | nil => simp [pickNearest]
  | cons x xs =>
    simp only [pickNearest]
    cases pickNearest c xs with
    | none => simp
    | some b => by_cases h : |x - c| ≤ |b - c| <;> simp [h]

theorem pickNearest_mem {c : ℚ} :
    ∀ (l : List ℚ) (r : ℚ), pickNearest c l = some r → r ∈ l := by
  intro l
  induction l with
  | nil => intro r h; simp [pickNearest] at h
  | cons x xs ih =>
    intro r h
    simp only [pickNearest] at h
    cases hp : pickNearest c xs with
    | none => rw [hp] at h; simp at h; simp [h]
    | some b =>
      rw [hp] at h
      dsimp only at h
      by_cases hle : |x - c| ≤ |b - c|
      · rw [if_pos hle] at h
        simp at h
        simp [h]
      · rw [if_neg hle] at h
        simp at h
        subst h
        exact List.mem_cons_of_mem x (ih b hp)

theorem pickNearest_min {c : ℚ} :
    ∀ (l : List ℚ) (r : ℚ), pickNearest c l = some r →
      ∀ x ∈ l, |r - c| ≤ |x - c| := by
  intro l
  induction l with
  | nil => intro r h; simp [pickNearest] at h
  | cons x xs ih =>
    intro r h
    simp only [pickNearest] at h
    cases hp : pickNearest c xs with
    | none =>
      rw [hp] at h
      simp at h
      have hxs : xs = [] := pickNearest_eq_none.mp hp
      subst hxs
      intro z hz
      rw [List.mem_singleton] at hz
      subst hz
      rw [h]
    | some b =>
      rw [hp] at h
      dsimp only at h
      by_cases hle : |x - c| ≤ |b - c|
      · rw [if_pos hle] at h
        simp at h
        subst h
        intro z hz
        rcases List.mem_cons.mp hz with rfl | hz
        · exact le_refl _
        · exact le_trans hle (ih b hp z hz)
      · rw [if_neg hle] at h
        simp at h
        subst h
        intro z hz
        rcases List.mem_cons.mp hz with rfl | hz
        · exact le_of_lt (lt_of_not_le hle)
        · exact ih b hp z hz

theorem argmax_spec :
    ∀ (l : List ℚ), l ≠ [] →
      ∃ m, l[argmaxIdx l]? = some m ∧ (∀ x ∈ l, x ≤ m) ∧
        ∀ j, j < argmaxIdx l → ∀ x, l[j]? = some x → x < m := by
  intro l
  induction l with
  | nil => intro h; exact absurd rfl h
  | cons x xs ih =>
    intro _
    by_cases hall : xs.all (fun y => decide (y ≤ x)) = true
    · refine ⟨x, ?_, ?_, ?_⟩
      · simp [argmaxIdx, hall]
      · intro z hz
        rcases List.mem_cons.mp hz with rfl | hz
        · exact le_refl z
        · have := List.all_eq_true.mp hall z hz
          simpa using this
      · intro j hj
        simp [argmaxIdx, hall] at hj
    · have hxs : xs ≠ [] := by
        rintro rfl
        simp [List.all_nil] at hall
      obtain ⟨m, hm, hmax, hfirst⟩ := ih hxs
      have hlt : ∃ y ∈ xs, x < y := by
        simp only [List.all_eq_true, decide_eq_true_eq] at hall
        push_neg at hall
        obtain ⟨y, hy, hxy⟩ := hall
        exact ⟨y, hy, hxy⟩
      obtain ⟨y, hy, hxy⟩ := hlt
      have hxm : x < m := lt_of_lt_of_le hxy (hmax y hy)
      have hidx : argmaxIdx (x :: xs) = argmaxIdx xs + 1 := by
        simp [argmaxIdx, hall]
      refine ⟨m, ?_, ?_, ?_⟩
      · rw [hidx]
        simpa using hm
      · intro z hz
        rcases List.mem_cons.mp hz with rfl | hz
        · exact le_of_lt hxm
        · exact hmax z hz
      · intro j hj z hz
        rw [hidx] at hj
        cases j with
        | zero =>
          simp at hz
          exact hz ▸ hxm
        | succ j0 =>
          rw [List.getElem?_cons_succ] at hz
          exact hfirst j0 (by omega) z hz

theorem lagFilter_mem {sr hop : ℕ} {bmin bmax : ℚ} :
    ∀ (start : ℕ) (s : List ℚ) (p : ℚ × ℚ),
      p ∈ lagFilter sr hop bmin bmax start s →
        bmin ≤ p.1 ∧ p.1 ≤ bmax ∧
          ∃ L : ℕ, 1 ≤ L ∧ start ≤ L ∧ p.1 = 60 * sr / (hop * L) := by
  intro start s
  induction s generalizing start with
  | nil => intro p hp; simp [lagFilter] at hp
  | cons a rest ih =>
    intro p hp
    simp only [lagFilter] at hp
    by_cases h0 : 0 < start
    · rw [if_pos h0] at hp
      by_cases hb : bmin ≤ (60 * sr / (hop * start) : ℚ) ∧
          (60 * sr / (hop * start) : ℚ) ≤ bmax
      · rw [if_pos hb] at hp
        rcases List.mem_cons.mp hp with rfl | hp
        · exact ⟨hb.1, hb.2, start, h0, le_refl start, rfl⟩
        · obtain ⟨h1, h2, L, hL1, hL2, hL3⟩ := ih (start + 1) p hp
          exact ⟨h1, h2, L, hL1, by omega, hL3⟩
      · rw [if_neg hb] at hp
        obtain ⟨h1, h2, L, hL1, hL2, hL3⟩ := ih (start + 1) p hp
        exact ⟨h1, h2, L, hL1, by omega, hL3⟩
    · rw [if_neg h0] at hp
      obtain ⟨h1, h2, L, hL1, hL2, hL3⟩ := ih (start + 1) p hp
      exact ⟨h1, h2, L, hL1, by omega, hL3⟩

theorem lagFilter_pairwise {sr hop : ℕ} {bmin bmax : ℚ}
    (hsr : 0 < sr) (hhop : 0 < hop) :
    ∀ (start : ℕ) (s : List ℚ),
      (lagFilter sr hop bmin bmax start s).Pairwise (fun p q => q.1 < p.1) := by
  intro start s
  induction s generalizing start with
  | nil => simp [lagFilter]
  | cons a rest ih =>
    simp only [lagFilter]
    by_cases h0 : 0 < start
    · rw [if_pos h0]
      by_cases hb : bmin ≤ (60 * sr / (hop * start) : ℚ) ∧
          (60 * sr / (hop * start) : ℚ) ≤ bmax
      · rw [if_pos hb]
        refine List.Pairwise.cons ?_ (ih (start + 1))
        intro q hq
        obtain ⟨_, _, L, hL1, hL2, hq1⟩ := lagFilter_mem (start + 1) rest q hq
        rw [hq1]
        have hnum : (0 : ℚ) < 60 * sr := by positivity
        have hden : (0 : ℚ) < hop * start := by positivity
        have hmul : (hop * start : ℚ) < hop * L := by
          have : hop * start < hop * L :=
            (Nat.mul_lt_mul_left hhop).mpr (by omega)
          exact_mod_cast this
        exact div_lt_div_of_pos_left hnum hden hmul
      · rw [if_neg hb]
        exact ih (start + 1)
    · rw [if_neg h0]
      exact ih (start + 1)

theorem tempogram_lengths_eq (tg : List (List ℚ)) (sr hop : ℕ) (bmin bmax : ℚ) :
    (tempogram_strengths tg sr hop bmin bmax).1.length
      = (tempogram_strengths tg sr hop bmin bmax).2.length := by
  simp [tempogram_strengths]

theorem apply_gaussian_prior_length (e : ℚ → ℚ) (bpms strengths : List ℚ)
    (pmin pmax : Option ℚ) (h : bpms.length = strengths.length) :
    (apply_gaussian_prior e bpms strengths pmin pmax).length = bpms.length := by
  unfold apply_gaussian_prior
  cases pmin with
  | none => exact h.symm
  | some mn =>
    cases pmax with
    | none => exact h.symm
    | some mx =>
      dsimp only
      split
      · exact h.symm
      · simp [List.length_zipWith, h]

theorem zip_tempogram (tg : List (List ℚ)) (sr hop : ℕ) (bmin bmax : ℚ) :
    (tempogram_strengths tg sr hop bmin bmax).1.zip
        (tempogram_strengths tg sr hop bmin bmax).2
      = lagFilter sr hop bmin bmax 0 (tg.map rowMean) := by
  simp [tempogram_strengths, List.zip_map']

theorem pick_bpm_def (e : ℚ → ℚ) (tg : List (List ℚ)) (sr hop : ℕ)
    (pmin pmax : Option ℚ) :
    pick_bpm e tg sr hop pmin pmax
      = (tempogram_strengths tg sr hop 30 240).1[
          argmaxIdx (weightedOf e tg sr hop pmin pmax)]? := rfl

theorem bpm_profile_pairwise (tg : List (List ℚ)) {sr hop : ℕ}
    (hsr : 0 < sr) (hhop : 0 < hop) :
    (tempogram_strengths tg sr hop 30 240).1.Pairwise (fun x y => y < x) := by
  have hp := @lagFilter_pairwise sr hop 30 240 hsr hhop 0 (tg.map rowMean)
  have he : (tempogram_strengths tg sr hop 30 240).1
      = (lagFilter sr hop 30 240 0 (tg.map rowMean)).map Prod.fst := rfl
  rw [he]
  exact hp.map _ (fun a b hab => hab)

end FindTemp

namespace MultiHop

theorem collectCandidates_eq (f : ℕ → List ℚ) :
    ∀ (hops : List ℕ) (need : ℕ),
      collectCandidates f hops need
        = ((hops.map (fun h => (f h).filter (fun c => decide (0 < c)))).flatten).take
            need := by
  intro hops
  induction hops with
  | nil => intro need; simp [collectCandidates]
  | cons h rest ih =>
    intro need
    simp only [collectCandidates, List.map_cons, List.flatten_cons]
    by_cases hc : need ≤ ((f h).filter (fun c => decide (0 < c))).length
    · rw [if_pos hc, List.take_append_of_le_length hc]
    · rw [if_neg hc, List.take_append_eq_append_take,
        List.take_of_length_le (by omega), ih]

end MultiHop

namespace MultiHop

theorem foldl_add_sq_zero :
    ∀ (l : List ℚ) (c : ℚ), (∀ x ∈ l, x = 0) →
      l.foldl (fun a x => a + x ^ 2) c = c := by
  intro l
  induction l with
  | nil => intro c _; rfl
  | cons x xs ih =>
    intro c h
    have hx : x = 0 := h x (List.mem_cons_self x xs)
    have hxs : ∀ z ∈ xs, z = 0 := fun z hz => h z (List.mem_cons_of_mem x hz)
    simp only [List.foldl_cons, hx]
    rw [show c + (0 : ℚ) ^ 2 = c by ring]
    exact ih c hxs

theorem frameEnergy_zero {y : List ℚ} (h : ∀ x ∈ y, x = 0) (hop t : ℕ) :
    frameEnergy y hop t = 0 := by
  unfold frameEnergy
  exact foldl_add_sq_zero _ 0
    (fun x hx => h x (List.mem_of_mem_drop (List.mem_of_mem_take hx)))

theorem onsetEnv_zero {y : List ℚ} (h : ∀ x ∈ y, x = 0) (hop : ℕ) :
    ∀ v ∈ onsetEnv y hop, v = 0 := by
  intro v hv
  unfold onsetEnv at hv
  obtain ⟨t, _, rfl⟩ := List.mem_map.mp hv
  rw [frameEnergy_zero h, frameEnergy_zero h]
  simp

theorem getD_zero {env : List ℚ} (h : ∀ x ∈ env, x = 0) (t : ℕ) :
    env.getD t 0 = 0 := by
  rw [List.getD_eq_getElem?_getD]
  cases he : env[t]? with
  | none => rfl
  | some v =>
    obtain ⟨hlt, hv⟩ := List.getElem?_eq_some.mp he
    simp [h v (hv ▸ List.getElem_mem hlt)]

theorem autocorrAt_zero {env : List ℚ} (h : ∀ x ∈ env, x = 0) (L : ℕ) :
    autocorrAt env L = 0 := by
  unfold autocorrAt
  have hstep : ∀ (l : List ℕ) (c : ℚ),
      l.foldl (fun a t => a + env.getD t 0 * env.getD (t + L) 0) c = c := by
    intro l
    induction l with
    | nil => intro c; rfl
    | cons t ts ih =>
      intro c
      simp only [List.foldl_cons]
      rw [getD_zero h t, getD_zero h (t + L),
        show c + (0 : ℚ) * 0 = c by ring]
      exact ih c
  exact hstep _ 0

theorem candidatesAtHop_zero {y : List ℚ} (h : ∀ x ∈ y, x = 0) (sr hop : ℕ) :
    candidatesAtHop y sr hop = [] := by
  have henv := onsetEnv_zero h hop
  have hfilter : (List.range (onsetEnv y hop).length).filter
      (fun L => decide (0 < L) && decide (0 < autocorrAt (onsetEnv y hop) L))
        = [] := by
    rw [List.filter_eq_nil_iff]
    intro L _
    rw [autocorrAt_zero henv]
    simp
  simp only [candidatesAtHop]
  rw [hfilter]
  rfl

theorem collectCandidates_of_empty (f : ℕ → List ℚ) :
    ∀ (hops : List ℕ), (∀ h ∈ hops, f h = []) →
      ∀ need, collectCandidates f hops need = [] := by
  intro hops
  induction hops with
  | nil => intro _ need; rfl
  | cons h rest ih =>
    intro hall need
    have hh : f h = [] := hall h (List.mem_cons_self h rest)
    have hrest : ∀ z ∈ rest, f z = [] :=
      fun z hz => hall z (List.mem_cons_of_mem h hz)
    simp only [collectCandidates, hh, List.filter_nil]
    split
    · simp
    · simpa using ih hrest (need - 0)

theorem detectTempoEngine_zero {y : List ℚ} (h : ∀ x ∈ y, x = 0) (sr : ℕ) :
    detectTempoEngine y sr = ([], 0) := by
  unfold detectTempoEngine
  have hpool : collectCandidates (fun hp => candidatesAtHop y sr hp)
      defaultHopSet defaultNeed = [] :=
    collectCandidates_of_empty _ defaultHopSet
      (fun hp _ => candidatesAtHop_zero h sr hp) defaultNeed
  rw [hpool]
  have hfb : fallbackEstimate y sr = none := by
    unfold fallbackEstimate
    rw [candidatesAtHop_zero h sr 512]
    rfl
  rw [if_pos rfl, hfb]

end MultiHop

namespace FindTemp

theorem apply_prior_none_left (e : ℚ → ℚ) (bpms strengths : List ℚ)
    (pmax : Option ℚ) :
    apply_gaussian_prior e bpms strengths none pmax = strengths := by
  cases pmax <;> rfl

theorem apply_prior_none_right (e : ℚ → ℚ) (bpms strengths : List ℚ)
    (pmin : Option ℚ) :
    apply_gaussian_prior e bpms strengths pmin none = strengths := by
  cases pmin <;> rfl

theorem apply_prior_inverted (e : ℚ → ℚ) (bpms strengths : List ℚ)
    (mn mx : ℚ) (h : mx ≤ mn) :
    apply_gaussian_prior e bpms strengths (some mn) (some mx) = strengths := by
  simp only [apply_gaussian_prior]
  rw [if_pos h]

theorem hdn_inverted (bpm mn mx : ℚ) (h : mx < mn) :
    half_double_normalize bpm (some mn) (some mx) = bpm := by
  have hfil : (hdCandidates bpm).filter (fun c => decide (mn ≤ c ∧ c ≤ mx))
      = [] := by
    rw [List.filter_eq_nil_iff]
    intro c _
    simp only [decide_eq_true_eq]
    rintro ⟨h1, h2⟩
    exact absurd (le_trans h1 h2) (not_le.mpr h)
  simp only [half_double_normalize]
  rw [hfil]
  rfl

theorem hdCandidates_184 :
    hdCandidates 184 = [184, 92, 368, 46, 736, 23, 1472] := by
  norm_num [hdCandidates, hdStep, unionL]

theorem filter_184 :
    (hdCandidates 184).filter (fun c => decide ((85 : ℚ) ≤ c ∧ c ≤ 95))
      = [92] := by
  rw [hdCandidates_184]
  norm_num

theorem hdn_184 : half_double_normalize 184 (some 85) (some 95) = 92 := by
  simp only [half_double_normalize]
  rw [filter_184]
  norm_num [pickNearest]

theorem tempogram_eval_core :
    tempogram_strengths [[0], [1]] 512 512 30 240 = ([60], [1]) := by
  norm_num [tempogram_strengths, lagFilter, rowMean]

theorem tempogram_eval_tie :
    tempogram_strengths [[5], [1], [1]] 512 512 30 240 = ([60, 30], [1, 1]) := by
  norm_num [tempogram_strengths, lagFilter, rowMean]

theorem npMedian_120 : npMedian [120] = 120 := by
  norm_num [npMedian, List.insertionSort, List.orderedInsert]

theorem hdn_none_left (bpm : ℚ) (pmax : Option ℚ) :
    half_double_normalize bpm none pmax = bpm := by
  cases pmax <;> rfl

theorem hdn_none_right (bpm : ℚ) (pmin : Option ℚ) :
    half_double_normalize bpm pmin none = bpm := by
  cases pmin <;> rfl

end FindTemp

namespace Claims

open FindTemp MultiHop

/-- Claim C1: with a preferred range `[mn, mx]` supplied,
`half_double_normalize` builds the candidate set
`{bpm * 2 ^ k : k ∈ [-3, 3]}` (up to 7 distinct values), returns a member
of that set lying inside the range that is nearest to the range center
`(mn + mx) / 2`, returns `bpm` unchanged when no member lies inside the
range, and in particular maps 184 with range `[85, 95]` to 92. -/
theorem C1_half_double_normalize_nearest (bpm mn mx : ℚ) :
    (∀ x, x ∈ hdCandidates bpm ↔ ∃ k : ℤ, -3 ≤ k ∧ k ≤ 3 ∧ x = bpm * 2 ^ k) ∧
    ((hdCandidates bpm).filter (fun c => decide (mn ≤ c ∧ c ≤ mx)) ≠ [] →
      half_double_normalize bpm (some mn) (some mx)
          ∈ (hdCandidates bpm).filter (fun c => decide (mn ≤ c ∧ c ≤ mx)) ∧
        ∀ c ∈ (hdCandidates bpm).filter (fun c => decide (mn ≤ c ∧ c ≤ mx)),
          |half_double_normalize bpm (some mn) (some mx) - (mn + mx) / 2|
            ≤ |c - (mn + mx) / 2|) ∧
    ((hdCandidates bpm).filter (fun c => decide (mn ≤ c ∧ c ≤ mx)) = [] →
      half_double_normalize bpm (some mn) (some mx) = bpm) ∧
    half_double_normalize 184 (some 85) (some 95) = 92 := by
  refine ⟨fun _ => mem_hdCandidates, ?_, ?_, hdn_184⟩
  · intro hne
    cases hpick : pickNearest ((mn + mx) / 2)
        ((hdCandidates bpm).filter (fun c => decide (mn ≤ c ∧ c ≤ mx))) with
    | none => exact absurd (pickNearest_eq_none.mp hpick) hne
    | some r =>
      have hr : half_double_normalize bpm (some mn) (some mx) = r := by
        simp only [half_double_normalize]
        rw [hpick]
      rw [hr]
      exact ⟨pickNearest_mem _ r hpick, fun c hc => pickNearest_min _ r hpick c hc⟩
  · intro hnil
    simp only [half_double_normalize]
    rw [hnil]
    rfl

/-- Witness for C1 at `bpm = 184`, range `[85, 95]`: the in-range candidate
list is nonempty and the returned value belongs to it. -/
theorem C1_witness :
    half_double_normalize 184 (some 85) (some 95)
        ∈ (hdCandidates 184).filter (fun c => decide ((85 : ℚ) ≤ c ∧ c ≤ 95)) :=
  ((C1_half_double_normalize_nearest 184 85 95).2.1
    (by rw [filter_184]; simp)).1

/-- Claim C2 (counterexample): calling the engine with the inverted
preferred range `[100, 80]` raises nothing and produces an ordinary
analysis result; the prior is silently skipped.  No `ConfigurationError`
exists anywhere in findtemp.py. -/
theorem C2_counterexample :
    detect_tempo_core id [120] [[0], [1]] 512 512 5 "median"
        (some 100) (some 80) true = some ⟨60, [120], some 120⟩ ∧
    apply_gaussian_prior id [60] [1] (some 100) (some 80) = [1] := by
  constructor
  · simp only [detect_tempo_core, tempogram_eval_core]
    rw [apply_prior_inverted id ([60], [1]).1 ([60], [1]).2 100 80 (by norm_num)]
    norm_num [argmaxIdx, aggregate_value, npMedian_120,
      hdn_inverted 60 100 80 (by norm_num)]
  · exact apply_prior_inverted id [60] [1] 100 80 (by norm_num)

/-- Claim C2 (amended): a preferred range with `max ≤ min` is silently
ignored — `apply_gaussian_prior` returns the strengths unmodified and
`half_double_normalize` finds no in-range candidate and returns its input,
so `detect_tempo` completes normally and produces a result. -/
theorem C2_invalid_range_silently_ignored (e : ℚ → ℚ)
    (bpms strengths : List ℚ) (bpm mn mx : ℚ) :
    (mx ≤ mn → apply_gaussian_prior e bpms strengths (some mn) (some mx)
        = strengths) ∧
    (mx < mn → half_double_normalize bpm (some mn) (some mx) = bpm) :=
  ⟨apply_prior_inverted e bpms strengths mn mx,
   hdn_inverted bpm mn mx⟩

/-- Witness for the amended C2 at the spec's own example `[100, 80]`. -/
theorem C2_witness :
    apply_gaussian_prior id [60] [1] (some 100) (some 80) = [1] ∧
    half_double_normalize 120 (some 100) (some 80) = 120 :=
  ⟨(C2_invalid_range_silently_ignored id [60] [1] 120 100 80).1 (by norm_num),
   (C2_invalid_range_silently_ignored id [60] [1] 120 100 80).2 (by norm_num)⟩

/-- Claim C3: candidate generation is repeated independently per hop
length of the configured set (default `[256, 384, 512, 768, 1024]`, tried
in this fixed priority order), pooling the valid (positive) candidates and
stopping early once the configured count (default 5, across all hop
lengths combined) is reached: the pooled list is exactly the
length-`need` prefix of the priority-ordered concatenation, and once one
hop already supplies `need` candidates the remaining hop lengths are
never consulted. -/
theorem C3_multi_hop_priority_pooling (f : ℕ → List ℚ) (hops : List ℕ)
    (need : ℕ) :
    collectCandidates f hops need
        = ((hops.map (fun h => (f h).filter (fun c => decide (0 < c)))).flatten).take
            need ∧
    (∀ h rest, need ≤ ((f h).filter (fun c => decide (0 < c))).length →
      collectCandidates f (h :: rest) need
        = ((f h).filter (fun c => decide (0 < c))).take need) ∧
    defaultHopSet = [256, 384, 512, 768, 1024] ∧ defaultNeed = 5 := by
  refine ⟨collectCandidates_eq f hops need, ?_, rfl, rfl⟩
  intro h rest hlen
  simp only [collectCandidates]
  rw [if_pos hlen]

/-- Witness for C3: a first hop length that already yields five valid
candidates satisfies the early-exit equation. -/
theorem C3_witness :
    collectCandidates (fun _ => [100, 100, 100, 100, 100])
        (256 :: [384, 512, 768, 1024]) 5
      = (([100, 100, 100, 100, 100] : List ℚ).filter
          (fun c => decide (0 < c))).take 5 :=
  (C3_multi_hop_priority_pooling (fun _ => [100, 100, 100, 100, 100]) [] 5).2.1
    256 [384, 512, 768, 1024] (by norm_num [List.filter])

/-- Claim C4: for a silent (all-zero) 5-second waveform at 44100 Hz the
engine returns the empty candidate list and aggregate 0 (the explicit
"unknown tempo" degraded result), not an exception. -/
theorem C4_silent_waveform_degrades :
    detectTempoEngine silentWaveform 44100 = ([], 0) :=
  detectTempoEngine_zero (fun _ hx => List.eq_of_mem_replicate hx) 44100

/-- Claim C5 (counterexample): the tempogram strength profile is stored in
descending BPM order, so when 30 BPM and 60 BPM tie at the maximal
strength the code picks 60 (the first occurrence in storage order), not
30 as first-occurrence-in-ascending-BPM-order would demand. -/
theorem C5_counterexample :
    tempogram_strengths [[5], [1], [1]] 512 512 30 240 = ([60, 30], [1, 1]) ∧
    pick_bpm id [[5], [1], [1]] 512 512 none none = some 60 ∧
    pick_bpm id [[5], [1], [1]] 512 512 none none ≠ some 30 := by
  have hpick : pick_bpm id [[5], [1], [1]] 512 512 none none = some 60 := by
    rw [pick_bpm_def]
    simp only [weightedOf]
    rw [tempogram_eval_tie, apply_prior_none_left]
    norm_num [argmaxIdx]
  refine ⟨tempogram_eval_tie, hpick, ?_⟩
  rw [hpick]
  simp

/-- Claim C5 (amended): the picked BPM is the BPM value at the argmax of
the (possibly prior-weighted) strength profile; when several BPM values
attain the maximal strength the tie is broken by first occurrence in the
profile's storage order, which is descending BPM order — i.e. the largest
tied BPM wins. -/
theorem C5_argmax_tie_largest_bpm (e : ℚ → ℚ) (tg : List (List ℚ))
    (sr hop : ℕ) (pmin pmax : Option ℚ) (hsr : 0 < sr) (hhop : 0 < hop)
    (hne : (tempogram_strengths tg sr hop 30 240).1 ≠ []) :
    ∃ b m,
      pick_bpm e tg sr hop pmin pmax = some b ∧
      (weightedOf e tg sr hop pmin pmax)[
          argmaxIdx (weightedOf e tg sr hop pmin pmax)]? = some m ∧
      (tempogram_strengths tg sr hop 30 240).1[
          argmaxIdx (weightedOf e tg sr hop pmin pmax)]? = some b ∧
      (∀ w ∈ weightedOf e tg sr hop pmin pmax, w ≤ m) ∧
      (∀ (j : ℕ) (c : ℚ), (weightedOf e tg sr hop pmin pmax)[j]? = some m →
        (tempogram_strengths tg sr hop 30 240).1[j]? = some c → c ≤ b) := by
  have hlen : (weightedOf e tg sr hop pmin pmax).length
      = (tempogram_strengths tg sr hop 30 240).1.length :=
    apply_gaussian_prior_length e _ _ pmin pmax
      (tempogram_lengths_eq tg sr hop 30 240)
  have hwne : weightedOf e tg sr hop pmin pmax ≠ [] := by
    intro h0
    apply hne
    have h1 := hlen
    rw [h0] at h1
    exact List.length_eq_zero.mp h1.symm
  obtain ⟨m, hm, hmax, hfirst⟩ := argmax_spec _ hwne
  obtain ⟨hilt, hbi⟩ := List.getElem?_eq_some.mp hm
  have hiP : argmaxIdx (weightedOf e tg sr hop pmin pmax)
      < (tempogram_strengths tg sr hop 30 240).1.length := hlen ▸ hilt
  refine ⟨(tempogram_strengths tg sr hop 30 240).1[
      argmaxIdx (weightedOf e tg sr hop pmin pmax)], m,
    ?_, hm, List.getElem?_eq_getElem hiP, hmax, ?_⟩
  · rw [pick_bpm_def]
    exact List.getElem?_eq_getElem hiP
  · intro j c hjm hjc
    by_cases hij : j < argmaxIdx (weightedOf e tg sr hop pmin pmax)
    · exact absurd (hfirst j hij m hjm) (lt_irrefl m)
    · push_neg at hij
      rcases eq_or_lt_of_le hij with heq | hlt2
      · rw [← heq, List.getElem?_eq_getElem hiP] at hjc
        have hc := Option.some.inj hjc
        exact le_of_eq hc.symm
      · have hpw := bpm_profile_pairwise tg hsr hhop
        obtain ⟨hjlt, hjc2⟩ := List.getElem?_eq_some.mp hjc
        have hlt3 := List.pairwise_iff_getElem.mp hpw
          (argmaxIdx (weightedOf e tg sr hop pmin pmax)) j hiP hjlt hlt2
        exact le_of_lt (hjc2 ▸ hlt3)

/-- Witness for the amended C5 at a concrete two-entry profile with a
strength tie between 60 BPM and 30 BPM. -/
theorem C5_witness :
    ∃ b m,
      pick_bpm id [[5], [1], [1]] 512 512 none none = some b ∧
      (weightedOf id [[5], [1], [1]] 512 512 none none)[
          argmaxIdx (weightedOf id [[5], [1], [1]] 512 512 none none)]? = some m ∧
      (tempogram_strengths [[5], [1], [1]] 512 512 30 240).1[
          argmaxIdx (weightedOf id [[5], [1], [1]] 512 512 none none)]? = some b ∧
      (∀ w ∈ weightedOf id [[5], [1], [1]] 512 512 none none, w ≤ m) ∧
      (∀ (j : ℕ) (c : ℚ),
        (weightedOf id [[5], [1], [1]] 512 512 none none)[j]? = some m →
        (tempogram_strengths [[5], [1], [1]] 512 512 30 240).1[j]? = some c →
          c ≤ b) :=
  C5_argmax_tie_largest_bpm id [[5], [1], [1]] 512 512 none none
    (by norm_num) (by norm_num) (by rw [tempogram_eval_tie]; simp)

/-- Claim C6: with both bounds supplied and `mn < mx`,
`apply_gaussian_prior` multiplies the strengths elementwise by
`exp(-0.5 * ((bpm - c) / sigma) ^ 2)` with `c = (mn + mx) / 2` and
`sigma = max ((mx - mn) / 2) 1` (`e` standing for the external `np.exp`);
with no preferred range the profile passes through unmodified. -/
theorem C6_gaussian_prior_formula (e : ℚ → ℚ) (bpms strengths : List ℚ)
    (mn mx : ℚ) :
    (mn < mx →
      apply_gaussian_prior e bpms strengths (some mn) (some mx)
        = List.zipWith
            (fun b s => s *
              e (-(1 / 2) * ((b - (mn + mx) / 2) / max ((mx - mn) / 2) 1) ^ 2))
            bpms strengths) ∧
    apply_gaussian_prior e bpms strengths none none = strengths := by
  constructor
  · intro h
    simp only [apply_gaussian_prior]
    rw [if_neg (not_le.mpr h)]
  · exact apply_prior_none_left e bpms strengths none

/-- Witness for C6 at `mn = 0 < 2 = mx` on singleton lists. -/
theorem C6_witness :
    apply_gaussian_prior id [1] [1] (some 0) (some 2)
      = List.zipWith
          (fun b s => s *
            id (-(1 / 2) * ((b - ((0 : ℚ) + 2) / 2) / max (((2 : ℚ) - 0) / 2) 1) ^ 2))
          [1] [1] :=
  (C6_gaussian_prior_formula id [1] [1] 0 2).1 (by norm_num)

/-- Claim C7: every `(bpm, strength)` pair returned by
`tempogram_strengths` satisfies `bmin ≤ bpm ≤ bmax` (default 30-240), the
BPM equals `60 * sr / (hop * L)` for some integer lag `L ≥ 1`, and (being
forced to `L ≥ 1`) the lag-zero entry is never included. -/
theorem C7_profile_invariants (tg : List (List ℚ)) (sr hop : ℕ)
    (bmin bmax : ℚ) (p : ℚ × ℚ)
    (hp : p ∈ (tempogram_strengths tg sr hop bmin bmax).1.zip
      (tempogram_strengths tg sr hop bmin bmax).2) :
    (bmin ≤ p.1 ∧ p.1 ≤ bmax) ∧
    ∃ L : ℕ, 1 ≤ L ∧ p.1 = 60 * sr / (hop * L) := by
  rw [zip_tempogram] at hp
  obtain ⟨h1, h2, L, hL1, _, hL3⟩ := lagFilter_mem 0 (tg.map rowMean) p hp
  exact ⟨⟨h1, h2⟩, L, hL1, hL3⟩

/-- Witness for C7 on a concrete two-lag tempogram. -/
theorem C7_witness :
    ((30 : ℚ) ≤ ((60 : ℚ), (1 : ℚ)).1 ∧ ((60 : ℚ), (1 : ℚ)).1 ≤ 240) ∧
    ∃ L : ℕ, 1 ≤ L ∧
      ((60 : ℚ), (1 : ℚ)).1 = 60 * ((512 : ℕ) : ℚ) / (((512 : ℕ) : ℚ) * L) :=
  C7_profile_invariants [[0], [1]] 512 512 30 240 (60, 1)
    (by rw [tempogram_eval_core]; simp [List.zip])

/-- Claim C8: `half_double_normalize` is the identity on the picked tempo
whenever `prefer_min` or `prefer_max` is absent, for every input. -/
theorem C8_no_range_identity (bpm : ℚ) :
    (∀ pmax : Option ℚ, half_double_normalize bpm none pmax = bpm) ∧
    (∀ pmin : Option ℚ, half_double_normalize bpm pmin none = bpm) := by
  constructor
  · intro pmax
    cases pmax <;> rfl
  · intro pmin
    cases pmin <;> rfl

/-- Claim C9: with the default mode "median" the aggregate equals the
median of the pooled candidate list; for the spec's pooled list
`[118.20, 119.00, 236.40, 120.10, 119.50]` (as exact rationals) the sort
order and the resulting median 119.50 are exactly as stated. -/
theorem C9_median_aggregate :
    (∀ cs : List ℚ, aggregate_value "median" cs = some (npMedian cs)) ∧
    npMedian [591 / 5, 119, 1182 / 5, 1201 / 10, 239 / 2] = 239 / 2 ∧
    List.insertionSort (fun a b => a ≤ b)
        [(591 : ℚ) / 5, 119, 1182 / 5, 1201 / 10, 239 / 2]
      = [591 / 5, 119, 239 / 2, 1201 / 10, 1182 / 5] := by
  refine ⟨fun cs => rfl, ?_, ?_⟩
  · norm_num [npMedian, List.insertionSort, List.orderedInsert]
  · norm_num [List.insertionSort, List.orderedInsert]

/-- Claim C10: for every input and preferred range the value returned by
`half_double_normalize` is `bpm * 2 ^ k` for some integer `-3 ≤ k ≤ 3`,
and whenever the returned value differs from the input it lies inside the
supplied preferred range. -/
theorem C10_power_of_two_and_range (bpm : ℚ) (pmin pmax : Option ℚ) :
    (∃ k : ℤ, -3 ≤ k ∧ k ≤ 3 ∧
      half_double_normalize bpm pmin pmax = bpm * 2 ^ k) ∧
    (half_double_normalize bpm pmin pmax ≠ bpm →
      ∃ mn mx, pmin = some mn ∧ pmax = some mx ∧
        mn ≤ half_double_normalize bpm pmin pmax ∧
        half_double_normalize bpm pmin pmax ≤ mx) := by
  cases pmin with
  | none =>
    cases pmax with
    | none =>
      exact ⟨⟨0, by omega, by omega, by rw [hdn_none_left]; simp⟩,
        fun hne => absurd rfl hne⟩
    | some mx =>
      exact ⟨⟨0, by omega, by omega, by rw [hdn_none_left]; simp⟩,
        fun hne => absurd rfl hne⟩
  | some mn =>
    cases pmax with
    | none =>
      exact ⟨⟨0, by omega, by omega, by rw [hdn_none_right]; simp⟩,
        fun hne => absurd rfl hne⟩
    | some mx =>
      cases hpick : pickNearest ((mn + mx) / 2)
          ((hdCandidates bpm).filter (fun c => decide (mn ≤ c ∧ c ≤ mx))) with
      | none =>
        have hr : half_double_normalize bpm (some mn) (some mx) = bpm := by
          simp only [half_double_normalize]
          rw [hpick]
        exact ⟨⟨0, by omega, by omega, by rw [hr]; simp⟩,
          fun hne => absurd hr hne⟩
      | some r =>
        have hr : half_double_normalize bpm (some mn) (some mx) = r := by
          simp only [half_double_normalize]
          rw [hpick]
        have hmem := pickNearest_mem _ r hpick
        obtain ⟨hmemc, hrange⟩ := List.mem_filter.mp hmem
        obtain ⟨k, hk1, hk2, hk3⟩ := mem_hdCandidates.mp hmemc
        simp only [decide_eq_true_eq] at hrange
        refine ⟨⟨k, hk1, hk2, by rw [hr, hk3]⟩, fun _ => ?_⟩
        exact ⟨mn, mx, rfl, rfl, by rw [hr]; exact hrange.1,
          by rw [hr]; exact hrange.2⟩

/-- Witness for C10 at `bpm = 184`, range `[85, 95]`: the result 92
differs from the input and lies inside the range. -/
theorem C10_witness :
    ∃ mn mx, (some (85 : ℚ)) = some mn ∧ (some (95 : ℚ)) = some mx ∧
      mn ≤ half_double_normalize 184 (some 85) (some 95) ∧
      half_double_normalize 184 (some 85) (some 95) ≤ mx :=
  (C10_power_of_two_and_range 184 (some 85) (some 95)).2
    (by rw [hdn_184]; norm_num)

end Claims
